import Mathlib

/-!
Shallow embedding of the tic-tac-toe engine and round controller from
`src/src/App.jsx` (a React single-page app).  Cells are `Option Mark`
(`null` in JS is `none`), a board is the JS array of nine cells, and the
in-place mutation of the JS search (`board[i] = ai; …; board[i] = null`)
is modelled functionally with `List.set`; a separate state-passing version
`minimaxS` keeps the mutation explicit for the frame property.  The JS
`-Infinity` / `Infinity` fold seeds are modelled by folding over
`Option Int` where `none` stands for the seed, exactly as `Math.max`
(`Math.min`) behaves on them.  The well-founded recursion of the search is
realised with a fuel parameter; fuel `b.length + 1` is always sufficient
(each recursive call fills one empty cell), which the fuel lemmas below
make precise.
-/

namespace TTT

/-- The two marks, `'X'` and `'O'` in the JS source. -/
inductive Mark where
  | X : Mark
  | O : Mark
deriving DecidableEq

/-- A cell is empty (`null`) or holds a mark. -/
abbrev Cell := Option Mark

/-- A board is the JS array of cells (nine of them in every reachable state). -/
abbrev Board := List Cell

/-- Reading `board[i]`: out-of-range reads give `undefined` in JS, which the
source only ever uses in falsy/equality positions where it behaves like an
empty cell. -/
def cellAt (b : Board) (i : Nat) : Cell := b.getD i none

/-- The 8 winning triples, in source order: 3 rows, 3 columns, 2 diagonals. -/
def LINES : List (Nat × Nat × Nat) :=
  [(0, 1, 2), (3, 4, 5), (6, 7, 8),
   (0, 3, 6), (1, 4, 7), (2, 5, 8),
   (0, 4, 8), (2, 4, 6)]

/-- The `emptyBoard` constructor: `Array(9).fill(null)`. -/
def emptyBoard : Board := List.replicate 9 none

/-- The body of the `winnerInfo` loop for one line:
`board[a] && board[a] === board[b] && board[a] === board[c]`. -/
def checkLine (b : Board) (l : Nat × Nat × Nat) : Option (Mark × (Nat × Nat × Nat)) :=
  match cellAt b l.1 with
  | none => none
  | some m => if cellAt b l.2.1 = some m ∧ cellAt b l.2.2 = some m then some (m, l) else none

/-- The `winnerInfo` function: first line (in `LINES` order) whose three cells
are equal and non-empty, paired with that mark. -/
def winnerInfo (b : Board) : Option (Mark × (Nat × Nat × Nat)) :=
  LINES.findSome? (checkLine b)

/-- The `isFull` function: `board.every(cell => cell !== null)`. -/
def isFull (b : Board) : Bool := b.all fun c => c.isSome

/-- The indices the `for` loops of `minimax`/`bestMove` act on: every index of
the board whose cell is `null` (the loops run over all indices and skip
non-empty cells). -/
def legalMoves (b : Board) : List Nat :=
  (List.range b.length).filter fun i => cellAt b i = none

/-- One `best = Math.max(best, s)` step, with `none` playing `-Infinity`. -/
def iMax (acc : Option Int) (s : Int) : Option Int :=
  some (match acc with | none => s | some v => max v s)

/-- One `best = Math.min(best, s)` step, with `none` playing `Infinity`. -/
def iMin (acc : Option Int) (s : Int) : Option Int :=
  some (match acc with | none => s | some v => min v s)

/-- The `let best = -Infinity; for … best = Math.max(best, s)` fold. -/
def listMax (l : List Int) : Option Int := l.foldl iMax none

/-- The `let best = Infinity; for … best = Math.min(best, s)` fold. -/
def listMin (l : List Int) : Option Int := l.foldl iMin none

/-- The `minimax` function, with a fuel parameter realising the recursion on
boards.  Fuel exhaustion (first equation) is unreachable whenever
`fuel > number of empty cells`, as proved below; likewise the `getD 0`
defaults are unreachable because a non-full board always has a legal move, so
the JS `±Infinity` seeds never escape. -/
def minimaxF : Nat → Board → Nat → Bool → Mark → Mark → Int
  | 0, _, _, _, _, _ => 0
  | fuel + 1, b, depth, isMax, ai, human =>
    match winnerInfo b with
    | some (m, _) => if m = ai then (10 : Int) - depth else (depth : Int) - 10
    | none =>
      if isFull b then 0
      else if isMax then
        (listMax ((legalMoves b).map fun i =>
          minimaxF fuel (b.set i (some ai)) (depth + 1) false ai human)).getD 0
      else
        (listMin ((legalMoves b).map fun i =>
          minimaxF fuel (b.set i (some human)) (depth + 1) true ai human)).getD 0

/-- The `minimax` entry point; `b.length + 1` fuel is always enough. -/
def minimax (b : Board) (depth : Nat) (isMax : Bool) (ai human : Mark) : Int :=
  minimaxF (b.length + 1) b depth isMax ai human

/-- The score `bestMove` computes for a candidate cell `i`:
`board[i] = ai; minimax(board, 0, false, ai, human); board[i] = null`. -/
def rootScore (b : Board) (ai human : Mark) (i : Nat) : Int :=
  minimax (b.set i (some ai)) 0 false ai human

/-- One iteration of the `bestMove` loop acting on the running pair
`(best, moves)`; `none` is the `-Infinity` seed of `best`. -/
def bmStep (b : Board) (ai human : Mark) (st : Option Int × List Nat) (i : Nat) :
    Option Int × List Nat :=
  if cellAt b i = none then
    let score := rootScore b ai human i
    match st.1 with
    | none => (some score, [i])
    | some best =>
      if best < score then (some score, [i])
      else if score = best then (st.1, st.2 ++ [i])
      else st
  else st

/-- The candidate list `moves` that `bestMove` has built when its loop ends. -/
def bestMoves (b : Board) (ai human : Mark) : List Nat :=
  ((List.range b.length).foldl (bmStep b ai human) (none, [])).2

/-- The `bestMove` function.  The only nondeterminism in the source is
`Math.floor(Math.random() * moves.length)`, a uniformly random index into
`moves`; it is injected here as `r % moves.length` for an arbitrary `r`. -/
def bestMove (b : Board) (ai human : Mark) (r : Nat) : Option Nat :=
  let moves := bestMoves b ai human
  if moves.isEmpty then none else moves.get? (r % moves.length)

/-- The number of empty cells of a board; the measure the search recursion
consumes, used to state fuel sufficiency. -/
def noneCount (b : Board) : Nat := b.countP fun c => c.isNone

/-- The legal cells in a fixed centre-first order.  This is auxiliary proof
machinery (not a translation): it enumerates exactly the cells of
`legalMoves` on a nine-cell board, in an order that keeps the draw
certificate below small. -/
def orderedMoves (b : Board) : List Nat :=
  [4, 6, 2, 0, 8, 7, 1, 5, 3].filter fun i => cellAt b i = none

/-- Auxiliary pruned search: `true` iff the mover cannot be beaten by the
opponent from `b` (the computer `ai` maximises).  Unlike `minimaxF` it
short-circuits, so concrete instances are cheap to evaluate; the lemma
below identifies it with nonnegativity of the minimax score. -/
def canDrawF : Nat → Board → Bool → Mark → Mark → Bool
  | 0, _, _, _, _ => false
  | fuel + 1, b, isMax, ai, human =>
    match winnerInfo b with
    | some (m, _) => decide (m = ai)
    | none =>
      if isFull b then true
      else if isMax then
        (orderedMoves b).any fun i => canDrawF fuel (b.set i (some ai)) false ai human
      else
        (orderedMoves b).all fun i => canDrawF fuel (b.set i (some human)) true ai human

/-- A nine-cell board held as nine separate fields.  Proof machinery only: a
flat representation of the same boards on which the pruned search evaluates
fast, linked to the list representation by `toList` and the lemmas below. -/
structure B9 where
  c0 : Cell
  c1 : Cell
  c2 : Cell
  c3 : Cell
  c4 : Cell
  c5 : Cell
  c6 : Cell
  c7 : Cell
  c8 : Cell

/-- The list board a flat board denotes. -/
def toList (v : B9) : Board :=
  [v.c0, v.c1, v.c2, v.c3, v.c4, v.c5, v.c6, v.c7, v.c8]

/-- The `checkLine` test reduced to its three cell values (dropping the line
component, which the search never consumes). -/
def checkL (x y z : Cell) : Option Mark :=
  match x with
  | none => none
  | some m => if y = some m ∧ z = some m then some m else none

/-- The winner scan on a flat board, in the same line order as `LINES`. -/
def scan9 (v : B9) : Option Mark :=
  match checkL v.c0 v.c1 v.c2 with
  | some m => some m
  | none =>
  match checkL v.c3 v.c4 v.c5 with
  | some m => some m
  | none =>
  match checkL v.c6 v.c7 v.c8 with
  | some m => some m
  | none =>
  match checkL v.c0 v.c3 v.c6 with
  | some m => some m
  | none =>
  match checkL v.c1 v.c4 v.c7 with
  | some m => some m
  | none =>
  match checkL v.c2 v.c5 v.c8 with
  | some m => some m
  | none =>
  match checkL v.c0 v.c4 v.c8 with
  | some m => some m
  | none => checkL v.c2 v.c4 v.c6

/-- Fullness of a flat board, in the same cell order as `isFull`. -/
def full9 (v : B9) : Bool :=
  v.c0.isSome && (v.c1.isSome && (v.c2.isSome && (v.c3.isSome && (v.c4.isSome &&
    (v.c5.isSome && (v.c6.isSome && (v.c7.isSome && (v.c8.isSome && true))))))))

/-- The pruned search `canDrawF` transcribed onto flat boards, with the move
order of `orderedMoves` written out.  The lemma below proves it equal to
`canDrawF` on the denoted list board; concrete instances of this version
evaluate fast enough for the kernel. -/
def canDraw9 : Nat → B9 → Bool → Mark → Mark → Bool
  | 0, _, _, _, _ => false
  | fuel + 1, v, isMax, ai, human =>
    match scan9 v with
    | some m => decide (m = ai)
    | none =>
      if full9 v then true
      else if isMax then
        (if v.c4 = none then canDraw9 fuel { v with c4 := some ai } false ai human else false) ||
        ((if v.c6 = none then canDraw9 fuel { v with c6 := some ai } false ai human else false) ||
        ((if v.c2 = none then canDraw9 fuel { v with c2 := some ai } false ai human else false) ||
        ((if v.c0 = none then canDraw9 fuel { v with c0 := some ai } false ai human else false) ||
        ((if v.c8 = none then canDraw9 fuel { v with c8 := some ai } false ai human else false) ||
        ((if v.c7 = none then canDraw9 fuel { v with c7 := some ai } false ai human else false) ||
        ((if v.c1 = none then canDraw9 fuel { v with c1 := some ai } false ai human else false) ||
        ((if v.c5 = none then canDraw9 fuel { v with c5 := some ai } false ai human else false) ||
        ((if v.c3 = none then canDraw9 fuel { v with c3 := some ai } false ai human else false) ||
        false))))))))
      else
        (if v.c4 = none then canDraw9 fuel { v with c4 := some human } true ai human else true) &&
        ((if v.c6 = none then canDraw9 fuel { v with c6 := some human } true ai human else true) &&
        ((if v.c2 = none then canDraw9 fuel { v with c2 := some human } true ai human else true) &&
        ((if v.c0 = none then canDraw9 fuel { v with c0 := some human } true ai human else true) &&
        ((if v.c8 = none then canDraw9 fuel { v with c8 := some human } true ai human else true) &&
        ((if v.c7 = none then canDraw9 fuel { v with c7 := some human } true ai human else true) &&
        ((if v.c1 = none then canDraw9 fuel { v with c1 := some human } true ai human else true) &&
        ((if v.c5 = none then canDraw9 fuel { v with c5 := some human } true ai human else true) &&
        ((if v.c3 = none then canDraw9 fuel { v with c3 := some human } true ai human else true) &&
        true))))))))

/-- The round outcome the controller derives from a board (`result` in the
source: `'human' | 'ai' | 'draw' | null`). -/
inductive RoundOutcome where
  | HumanWin : RoundOutcome
  | ComputerWin : RoundOutcome
  | Draw : RoundOutcome
  | InProgress : RoundOutcome
deriving DecidableEq

/-- Outcome derivation, mirroring the `useEffect` at lines 229-243:
winner equal to the human mark is a human win, any other winner is a
computer win, a full board is a draw, otherwise the round runs on. -/
def outcomeOf (b : Board) (human : Mark) : RoundOutcome :=
  match winnerInfo b with
  | some (m, _) => if m = human then RoundOutcome.HumanWin else RoundOutcome.ComputerWin
  | none => if isFull b then RoundOutcome.Draw else RoundOutcome.InProgress

/-- The reachable round states when the human holds `'X'` (the first-moving
mark) and the computer `'O'`: the human plays any empty cell while the round
is undecided, the computer plays any element of `bestMoves` (covering every
tie-breaking choice of `bestMove`).  The flag records whose turn it is
(`true` = human). -/
inductive Reach : Board → Bool → Prop where
  | init : Reach emptyBoard true
  | humanMove {b : Board} {j : Nat} :
      Reach b true → winnerInfo b = none → isFull b = false →
      b.get? j = some none → Reach (b.set j (some Mark.X)) false
  | compMove {b : Board} {i : Nat} :
      Reach b false → winnerInfo b = none →
      i ∈ bestMoves b Mark.O Mark.X → Reach (b.set i (some Mark.O)) true

/-- The `result` values of the controller: `'human' | 'ai' | 'draw'`. -/
inductive RResult where
  | human : RResult
  | ai : RResult
  | draw : RResult
deriving DecidableEq

/-- The score record `{ wins, losses, draws }`. -/
structure Score where
  wins : Nat
  losses : Nat
  draws : Nat
deriving DecidableEq

/-- The controller state of the `App` component: the `board`, `human`,
`turn`, `result`, `winLine` and `score` pieces of React state, plus
`scored` for `scoredRef.current`. -/
structure GameState where
  board : Board
  human : Mark
  turn : Mark
  result : Option RResult
  winLine : List Nat
  score : Score
  scored : Option RResult
deriving DecidableEq

/-- The computer's mark: `human === 'X' ? 'O' : 'X'`. -/
def aiOf (s : GameState) : Mark := if s.human = Mark.X then Mark.O else Mark.X

/-- The result-derivation effect (lines 229-243): recompute `winLine` and
`result` from the board. -/
def deriveResult (s : GameState) : GameState :=
  match winnerInfo s.board with
  | some (m, l) =>
    { s with winLine := [l.1, l.2.1, l.2.2],
             result := some (if m = s.human then RResult.human else RResult.ai) }
  | none =>
    if isFull s.board then { s with winLine := [], result := some RResult.draw }
    else { s with winLine := [], result := none }

/-- The score-tally effect (lines 246-261): on a non-null `result` not yet
recorded in `scoredRef`, bump the matching counter and record it. -/
def scoreTally (s : GameState) : GameState :=
  match s.result with
  | none => s
  | some r =>
    if s.scored = some r then s
    else
      { s with
        score :=
          match r with
          | RResult.human => { s.score with wins := s.score.wins + 1 }
          | RResult.ai => { s.score with losses := s.score.losses + 1 }
          | RResult.draw => { s.score with draws := s.score.draws + 1 },
        scored := some r }

/-- Both effects in their declaration order, as React runs them after a
state change. -/
def applyEffects (s : GameState) : GameState := scoreTally (deriveResult s)

/-- The `clickCell` handler (lines 284-296): ignore the click when the round
is over, when it is not the human's turn, or when the cell is not `null`
(an out-of-range index reads `undefined !== null` in JS and is likewise
ignored); otherwise place the human mark and hand the turn to the computer. -/
def clickCell (s : GameState) (idx : Nat) : GameState :=
  if s.result.isSome then s
  else if s.turn ≠ s.human then s
  else if s.board.get? idx ≠ some none then s
  else { s with board := s.board.set idx (some s.human), turn := aiOf s }

/-- The `restartRound` callback (lines 183-189). -/
def restartRound (s : GameState) : GameState :=
  { s with board := emptyBoard, turn := Mark.X, result := none, winLine := [],
           scored := none }

/-- The `chooseSymbol` callback (lines 191-203): a no-op when the requested
mark is already the human's, otherwise reassign and restart. -/
def chooseSymbol (s : GameState) (next : Mark) : GameState :=
  if next = s.human then s
  else
    { s with human := next, board := emptyBoard, turn := Mark.X, result := none,
             winLine := [], scored := none }

/-- The body of the JS search loops with their mutation kept explicit: walk
the indices, and at each `null` cell write the mark, run `f` on the mutated
board, write `null` back, and fold the returned score into `acc`.  The board
is threaded through so that what the caller observes afterwards is exactly
the final board term. -/
def searchLoopS (f : Board → Int × Board) (mark : Mark)
    (combine : Option Int → Int → Option Int) :
    List Nat → Board → Option Int → Option Int × Board
  | [], b, acc => (acc, b)
  | i :: rest, b, acc =>
    if cellAt b i = none then
      let res := f (b.set i (some mark))
      searchLoopS f mark combine rest (res.2.set i none) (combine acc res.1)
    else searchLoopS f mark combine rest b acc

/-- The `minimax` function with the in-place mutation of its board argument
modelled by state passing: the returned board is what the caller's array
holds after the call. -/
def minimaxS : Nat → Board → Nat → Bool → Mark → Mark → Int × Board
  | 0, b, _, _, _, _ => (0, b)
  | fuel + 1, b, depth, isMax, ai, human =>
    match winnerInfo b with
    | some (m, _) => ((if m = ai then (10 : Int) - depth else (depth : Int) - 10), b)
    | none =>
      if isFull b then ((0 : Int), b)
      else if isMax then
        let r := searchLoopS (fun nb => minimaxS fuel nb (depth + 1) false ai human)
          ai iMax (List.range b.length) b none
        (r.1.getD 0, r.2)
      else
        let r := searchLoopS (fun nb => minimaxS fuel nb (depth + 1) true ai human)
          human iMin (List.range b.length) b none
        (r.1.getD 0, r.2)

/-- One iteration of the `bestMove` candidate loop with mutation explicit:
place the computer mark, score with the stateful `minimaxS`, restore the
cell, and update the running `(best, moves)` pair. -/
def bmLoopS (ai human : Mark) :
    List Nat → Board → (Option Int × List Nat) → (Option Int × List Nat) × Board
  | [], b, st => (st, b)
  | i :: rest, b, st =>
    if cellAt b i = none then
      let res := minimaxS (b.length + 1) (b.set i (some ai)) 0 false ai human
      let st' :=
        match st.1 with
        | none => (some res.1, [i])
        | some best =>
          if best < res.1 then (some res.1, [i])
          else if res.1 = best then (st.1, st.2 ++ [i])
          else st
      bmLoopS ai human rest (res.2.set i none) st'
    else bmLoopS ai human rest b st

/-- The `bestMove` function with mutation explicit; the second component is
the board the caller observes after the call. -/
def bestMoveS (b : Board) (ai human : Mark) (r : Nat) : Option Nat × Board :=
  let res := bmLoopS ai human (List.range b.length) b (none, [])
  (if res.1.2.isEmpty then none else res.1.2.get? (r % res.1.2.length), res.2)

/-- A line is occupied by a single mark: all three of its cells hold `m`. -/
def lineFilled (b : Board) (l : Nat × Nat × Nat) (m : Mark) : Prop :=
  cellAt b l.1 = some m ∧ cellAt b l.2.1 = some m ∧ cellAt b l.2.2 = some m

/-- The legal indices of a prefix of the index walk (proof machinery for the
`bestMove` loop invariant). -/
def legalIn (b : Board) (l : List Nat) : List Nat :=
  l.filter fun i => cellAt b i = none

/-- The running maximum of the root scores over a prefix of the index walk. -/
def specBest (b : Board) (ai human : Mark) (l : List Nat) : Option Int :=
  listMax ((legalIn b l).map (rootScore b ai human))

/-- The candidates a prefix of the index walk should have collected: its
legal indices whose root score attains the running maximum. -/
def specMoves (b : Board) (ai human : Mark) (l : List Nat) : List Nat :=
  (legalIn b l).filter fun i => specBest b ai human l = some (rootScore b ai human i)

/-- A decided but not full board: `X` owns the top row, six cells are empty. -/
def wbRow : Board :=
  [some Mark.X, some Mark.X, some Mark.X, none, none, none, none, none, none]

/-- A board with no winner and exactly one empty cell (index 8). -/
def wbOneEmpty : Board :=
  [some Mark.X, some Mark.X, some Mark.O, some Mark.O, some Mark.O, some Mark.X,
   some Mark.X, some Mark.O, none]

/-- A full board with no winner (a drawn position). -/
def wbDraw : Board :=
  [some Mark.X, some Mark.X, some Mark.O, some Mark.O, some Mark.O, some Mark.X,
   some Mark.X, some Mark.O, some Mark.X]

/-- A finished-round controller state whose outcome is already tallied. -/
def wsOver : GameState :=
  ⟨wbRow, Mark.X, Mark.X, some RResult.human, [0, 1, 2], ⟨0, 0, 0⟩, some RResult.human⟩

/-- A mid-round controller state: the human (playing `X`) has placed one mark
and it is the computer's turn. -/
def wsMid : GameState :=
  ⟨[some Mark.X, none, none, none, none, none, none, none, none],
   Mark.X, Mark.O, none, [], ⟨0, 0, 0⟩, none⟩

/-- A fresh controller state in which the human picked `O`. -/
def wsHumanO : GameState :=
  ⟨emptyBoard, Mark.O, Mark.X, none, [], ⟨0, 0, 0⟩, none⟩

/-- A just-finished round (human won) whose outcome is not yet tallied. -/
def wsScore : GameState :=
  ⟨wbRow, Mark.X, Mark.X, some RResult.human, [0, 1, 2], ⟨3, 1, 2⟩, none⟩

/-! Basic facts about cells, legal moves and the counting measure. -/

theorem cellAt_eq_getElem {b : Board} {i : Nat} (h : i < b.length) :
    cellAt b i = b[i] := by
  simp [cellAt, List.getD_eq_getElem?_getD, List.getElem?_eq_getElem h]

theorem cellAt_cons_succ {c : Cell} {t : Board} {i : Nat} :
    cellAt (c :: t) (i + 1) = cellAt t i := by
  simp [cellAt]

theorem mem_legalMoves {b : Board} {i : Nat} :
    i ∈ legalMoves b ↔ i < b.length ∧ cellAt b i = none := by
  simp [legalMoves, List.mem_filter, List.mem_range]

theorem legalMoves_eq_nil_iff {b : Board} : legalMoves b = [] ↔ isFull b = true := by
  constructor
  · intro h
    rw [isFull, List.all_eq_true]
    intro c hc
    rcases List.mem_iff_getElem.mp hc with ⟨i, hi, rfl⟩
    rcases Option.eq_none_or_eq_some b[i] with hnone | ⟨m, hm⟩
    · exfalso
      have : i ∈ legalMoves b := mem_legalMoves.mpr ⟨hi, by rw [cellAt_eq_getElem hi, hnone]⟩
      simp [h] at this
    · simp [hm]
  · intro h
    rw [legalMoves, List.filter_eq_nil_iff]
    intro i hi
    rw [List.mem_range] at hi
    have hs := List.all_eq_true.mp h _ (List.getElem_mem hi)
    simp only [decide_eq_true_eq, cellAt_eq_getElem hi]
    intro hc
    rw [hc] at hs
    simp at hs

theorem mem_orderedMoves {b : Board} (hb : b.length = 9) {i : Nat} :
    i ∈ orderedMoves b ↔ i ∈ legalMoves b := by
  have h9a : ∀ j, j ∈ [4, 6, 2, 0, 8, 7, 1, 5, 3] → j < 9 := by decide
  have h9b : ∀ j, j < 9 → j ∈ [4, 6, 2, 0, 8, 7, 1, 5, 3] := by decide
  rw [orderedMoves, List.mem_filter, mem_legalMoves, hb]
  constructor
  · rintro ⟨hm, hc⟩
    exact ⟨h9a i hm, by simpa using hc⟩
  · rintro ⟨hm, hc⟩
    exact ⟨h9b i hm, by simpa using hc⟩

theorem noneCount_pos {b : Board} {i : Nat} (h : i < b.length) (he : cellAt b i = none) :
    0 < noneCount b := by
  rw [noneCount, List.countP_pos_iff]
  refine ⟨b[i], List.getElem_mem h, ?_⟩
  rw [cellAt_eq_getElem h] at he
  simp [he]

theorem noneCount_le_length {b : Board} : noneCount b ≤ b.length := by
  rw [noneCount]
  exact List.countP_le_length _

theorem noneCount_set {b : Board} {m : Mark} :
    ∀ {i : Nat}, i < b.length → cellAt b i = none →
      noneCount (b.set i (some m)) + 1 = noneCount b := by
  induction b with
  | nil => intro i h _; simp at h
  | cons c t ih =>
    intro i h he
    match i with
    | 0 =>
      have : c = none := he
      subst this
      simp [noneCount, List.countP_cons]
    | j + 1 =>
      rw [cellAt_cons_succ] at he
      have hj : j < t.length := by simpa using h
      have := ih hj he
      simp only [List.set_cons_succ, noneCount, List.countP_cons] at *
      omega

theorem set_none_id {b : Board} : ∀ {i : Nat}, cellAt b i = none → b.set i none = b := by
  induction b with
  | nil => intro i _; simp
  | cons c t ih =>
    intro i he
    match i with
    | 0 =>
      have : c = none := he
      subst this
      rfl
    | j + 1 =>
      rw [cellAt_cons_succ] at he
      simp [ih he]

theorem set_restore {b : Board} {i : Nat} {x : Cell} (he : cellAt b i = none) :
    (b.set i x).set i none = b := by
  rw [List.set_set, set_none_id he]

/-! Facts about the `-Infinity` / `Infinity` seeded folds. -/

theorem foldl_max_spec (l : List Int) :
    ∀ a : Int, a ≤ l.foldl max a ∧ (∀ x ∈ l, x ≤ l.foldl max a) ∧
      (l.foldl max a = a ∨ l.foldl max a ∈ l) := by
  induction l with
  | nil => intro a; exact ⟨le_refl a, by simp, Or.inl rfl⟩
  | cons x t ih =>
    intro a
    rcases ih (max a x) with ⟨h1, h2, h3⟩
    refine ⟨le_trans (le_max_left a x) h1, ?_, ?_⟩
    · intro y hy
      rcases List.mem_cons.mp hy with rfl | hyt
      · exact le_trans (le_max_right a _) h1
      · exact h2 y hyt
    · rcases h3 with h3 | h3
      · rcases max_choice a x with hc | hc
        · exact Or.inl (by rw [List.foldl_cons, h3, hc])
        · exact Or.inr (by rw [List.foldl_cons, h3, hc]; exact List.mem_cons_self x t)
      · exact Or.inr (List.mem_cons_of_mem x h3)

theorem foldl_min_spec (l : List Int) :
    ∀ a : Int, l.foldl min a ≤ a ∧ (∀ x ∈ l, l.foldl min a ≤ x) ∧
      (l.foldl min a = a ∨ l.foldl min a ∈ l) := by
  induction l with
  | nil => intro a; exact ⟨le_refl a, by simp, Or.inl rfl⟩
  | cons x t ih =>
    intro a
    rcases ih (min a x) with ⟨h1, h2, h3⟩
    refine ⟨le_trans h1 (min_le_left a x), ?_, ?_⟩
    · intro y hy
      rcases List.mem_cons.mp hy with rfl | hyt
      · exact le_trans h1 (min_le_right a _)
      · exact h2 y hyt
    · rcases h3 with h3 | h3
      · rcases min_choice a x with hc | hc
        · exact Or.inl (by rw [List.foldl_cons, h3, hc])
        · exact Or.inr (by rw [List.foldl_cons, h3, hc]; exact List.mem_cons_self x t)
      · exact Or.inr (List.mem_cons_of_mem x h3)

theorem foldl_iMax_some (l : List Int) : ∀ a : Int, l.foldl iMax (some a) = some (l.foldl max a) := by
  induction l with
  | nil => intro a; rfl
  | cons x t ih => intro a; simpa [iMax] using ih (max a x)

theorem foldl_iMin_some (l : List Int) : ∀ a : Int, l.foldl iMin (some a) = some (l.foldl min a) := by
  induction l with
  | nil => intro a; rfl
  | cons x t ih => intro a; simpa [iMin] using ih (min a x)

theorem listMax_spec {l : List Int} (h : l ≠ []) :
    ∃ m, listMax l = some m ∧ m ∈ l ∧ ∀ x ∈ l, x ≤ m := by
  cases l with
  | nil => exact absurd rfl h
  | cons x t =>
    refine ⟨t.foldl max x, ?_, ?_, ?_⟩
    · rw [listMax, List.foldl_cons]
      exact foldl_iMax_some t x
    · rcases (foldl_max_spec t x).2.2 with h3 | h3
      · rw [h3]; exact List.mem_cons_self x t
      · exact List.mem_cons_of_mem x h3
    · intro y hy
      rcases List.mem_cons.mp hy with rfl | hyt
      · exact (foldl_max_spec t y).1
      · exact (foldl_max_spec t x).2.1 y hyt

theorem listMin_spec {l : List Int} (h : l ≠ []) :
    ∃ m, listMin l = some m ∧ m ∈ l ∧ ∀ x ∈ l, m ≤ x := by
  cases l with
  | nil => exact absurd rfl h
  | cons x t =>
    refine ⟨t.foldl min x, ?_, ?_, ?_⟩
    · rw [listMin, List.foldl_cons]
      exact foldl_iMin_some t x
    · rcases (foldl_min_spec t x).2.2 with h3 | h3
      · rw [h3]; exact List.mem_cons_self x t
      · exact List.mem_cons_of_mem x h3
    · intro y hy
      rcases List.mem_cons.mp hy with rfl | hyt
      · exact (foldl_min_spec t y).1
      · exact (foldl_min_spec t x).2.1 y hyt

theorem listMax_eq_none_iff {l : List Int} : listMax l = none ↔ l = [] := by
  cases l with
  | nil => simp [listMax]
  | cons x t =>
    simp only [List.cons_ne_nil, iff_false]
    rw [listMax, List.foldl_cons]
    have hi : (iMax none x) = some x := rfl
    rw [hi, foldl_iMax_some]
    simp

theorem listMax_append_singleton {l : List Int} {s : Int} :
    listMax (l ++ [s]) = iMax (listMax l) s := by
  rw [listMax, List.foldl_append]
  rfl

/-! A first-match characterisation of `List.findSome?`. -/

theorem findSome?_eq_some_iff {α β : Type} {f : α → Option β} :
    ∀ {l : List α} {r : β},
      l.findSome? f = some r ↔
        ∃ l1 a l2, l = l1 ++ a :: l2 ∧ f a = some r ∧ ∀ x ∈ l1, f x = none := by
  intro l
  induction l with
  | nil => intro r; simp [List.findSome?]
  | cons a t ih =>
    intro r
    rcases hfa : f a with _ | b
    · simp only [List.findSome?_cons, hfa]
      constructor
      · intro h
        rcases ih.mp h with ⟨l1, x, l2, rfl, hx, hnone⟩
        refine ⟨a :: l1, x, l2, rfl, hx, ?_⟩
        intro y hy
        rcases List.mem_cons.mp hy with rfl | hyt
        · exact hfa
        · exact hnone y hyt
      · rintro ⟨l1, x, l2, heq, hx, hnone⟩
        cases l1 with
        | nil =>
          rw [List.nil_append] at heq
          injection heq with h1 h2
          subst h1
          subst h2
          rw [hfa] at hx
          exact absurd hx (by simp)
        | cons c l1' =>
          rw [List.cons_append] at heq
          injection heq with h1 h2
          subst h1
          subst h2
          exact ih.mpr ⟨l1', x, l2, rfl, hx, fun y hy => hnone y (List.mem_cons_of_mem a hy)⟩
    · simp only [List.findSome?_cons, hfa]
      constructor
      · intro h
        injection h with hbr
        subst hbr
        exact ⟨[], a, t, rfl, hfa, by simp⟩
      · rintro ⟨l1, x, l2, heq, hx, hnone⟩
        cases l1 with
        | nil =>
          rw [List.nil_append] at heq
          injection heq with h1 h2
          subst h1
          subst h2
          rw [hfa] at hx
          exact hx
        | cons c l1' =>
          rw [List.cons_append] at heq
          injection heq with h1 h2
          subst h1
          subst h2
          rw [hnone a (List.mem_cons_self a l1')] at hfa
          exact absurd hfa (by simp)

theorem findSome?_eq_none_iff {α β : Type} {f : α → Option β} {l : List α} :
    l.findSome? f = none ↔ ∀ x ∈ l, f x = none := by
  induction l with
  | nil => simp [List.findSome?]
  | cons a t ih =>
    rw [List.findSome?_cons]
    match hfa : f a with
    | some b => simp [hfa]
    | none => simp [hfa, ih]

/-! Facts about the winner scan. -/

theorem checkLine_of_lineFilled {b : Board} {l : Nat × Nat × Nat} {m : Mark}
    (hf : lineFilled b l m) : checkLine b l = some (m, l) := by
  simp [checkLine, hf.1, hf.2.1, hf.2.2]

theorem lineFilled_of_checkLine {b : Board} {l l' : Nat × Nat × Nat} {m : Mark}
    (h : checkLine b l = some (m, l')) : l' = l ∧ lineFilled b l m := by
  rcases hc : cellAt b l.1 with _ | m0
  · simp only [checkLine, hc] at h
    exact Option.noConfusion h
  · simp only [checkLine, hc] at h
    by_cases h2 : cellAt b l.2.1 = some m0 ∧ cellAt b l.2.2 = some m0
    · rw [if_pos h2] at h
      injection h with hp
      injection hp with hm hl
      subst hm
      subst hl
      exact ⟨rfl, hc, h2.1, h2.2⟩
    · rw [if_neg h2] at h
      exact absurd h (by simp)

theorem winnerInfo_eq_some_elim {b : Board} {m : Mark} {l : Nat × Nat × Nat}
    (h : winnerInfo b = some (m, l)) :
    lineFilled b l m ∧ l ∈ LINES ∧
      ∃ l1 l2, LINES = l1 ++ l :: l2 ∧ ∀ l' ∈ l1, ∀ m' : Mark, ¬ lineFilled b l' m' := by
  rcases findSome?_eq_some_iff.mp h with ⟨l1, a, l2, hsplit, ha, hnone⟩
  rcases lineFilled_of_checkLine ha with ⟨rfl, hf⟩
  refine ⟨hf, ?_, l1, l2, hsplit, ?_⟩
  · rw [hsplit]
    exact List.mem_append_right l1 (List.mem_cons_self l l2)
  · intro l' hl' m' hf'
    have := checkLine_of_lineFilled hf'
    rw [hnone l' hl'] at this
    exact absurd this (by simp)

theorem winnerInfo_ne_none_of_filled {b : Board} {l : Nat × Nat × Nat} {m : Mark}
    (hl : l ∈ LINES) (hf : lineFilled b l m) : winnerInfo b ≠ none := by
  intro h
  have := findSome?_eq_none_iff.mp h l hl
  rw [checkLine_of_lineFilled hf] at this
  exact absurd this (by simp)

/-! Unfolding lemmas for the search recursion. -/

theorem minimaxF_succ (fuel : Nat) (b : Board) (depth : Nat) (isMax : Bool) (ai human : Mark) :
    minimaxF (fuel + 1) b depth isMax ai human =
      match winnerInfo b with
      | some (m, _) => if m = ai then (10 : Int) - depth else (depth : Int) - 10
      | none =>
        if isFull b then 0
        else if isMax then
          (listMax ((legalMoves b).map fun i =>
            minimaxF fuel (b.set i (some ai)) (depth + 1) false ai human)).getD 0
        else
          (listMin ((legalMoves b).map fun i =>
            minimaxF fuel (b.set i (some human)) (depth + 1) true ai human)).getD 0 := by
  rw [minimaxF]

theorem canDrawF_succ (fuel : Nat) (b : Board) (isMax : Bool) (ai human : Mark) :
    canDrawF (fuel + 1) b isMax ai human =
      match winnerInfo b with
      | some (m, _) => decide (m = ai)
      | none =>
        if isFull b then true
        else if isMax then
          (orderedMoves b).any fun i => canDrawF fuel (b.set i (some ai)) false ai human
        else
          (orderedMoves b).all fun i => canDrawF fuel (b.set i (some human)) true ai human := by
  rw [canDrawF]

/-- The pruned search agrees with nonnegativity of the minimax score: the
computer cannot be beaten from `b` exactly when the exhaustive evaluation of
`b` at any admissible depth is nonnegative. -/
theorem canDraw_iff (ai human : Mark) :
    ∀ (fuel : Nat) (b : Board) (d : Nat) (isMax : Bool), b.length = 9 →
      noneCount b < fuel → d + noneCount b ≤ 9 →
      (canDrawF fuel b isMax ai human = true ↔ 0 ≤ minimaxF fuel b d isMax ai human) := by
  intro fuel
  induction fuel with
  | zero =>
    intro b d isMax _ hfuel _
    exact absurd hfuel (by omega)
  | succ f ih =>
    intro b d isMax hb hfuel hd
    rw [canDrawF_succ, minimaxF_succ]
    rcases hw : winnerInfo b with _ | ⟨m, l⟩
    · simp only [hw]
      rcases hfull : isFull b with _ | _
      · simp only [hfull, Bool.false_eq_true, if_false]
        have hne : legalMoves b ≠ [] := by
          intro hnil
          rw [legalMoves_eq_nil_iff.mp hnil] at hfull
          exact Bool.noConfusion hfull
        cases isMax with
        | true =>
          simp only [if_true]
          have hmapne : ((legalMoves b).map fun i =>
              minimaxF f (b.set i (some ai)) (d + 1) false ai human) ≠ [] := by
            simpa using hne
          obtain ⟨mx, hmx, hmem, hmax⟩ := listMax_spec hmapne
          rw [hmx, Option.getD_some]
          constructor
          · intro hany
            rcases List.any_eq_true.mp hany with ⟨i, hio, hci⟩
            have hil : i ∈ legalMoves b := (mem_orderedMoves hb).mp hio
            obtain ⟨hilt, hie⟩ := mem_legalMoves.mp hil
            have hnc := noneCount_set (m := ai) hilt hie
            have hlen : (b.set i (some ai)).length = 9 := by simp [hb]
            have hstep := (ih (b.set i (some ai)) (d + 1) false hlen
              (by omega) (by omega)).mp hci
            refine le_trans hstep (hmax _ ?_)
            exact List.mem_map.mpr ⟨i, hil, rfl⟩
          · intro h0
            rcases List.mem_map.mp hmem with ⟨i, hil, hscore⟩
            obtain ⟨hilt, hie⟩ := mem_legalMoves.mp hil
            have hnc := noneCount_set (m := ai) hilt hie
            have hlen : (b.set i (some ai)).length = 9 := by simp [hb]
            refine List.any_eq_true.mpr ⟨i, (mem_orderedMoves hb).mpr hil, ?_⟩
            refine (ih (b.set i (some ai)) (d + 1) false hlen (by omega) (by omega)).mpr ?_
            rw [hscore]
            exact h0
        | false =>
          simp only [Bool.false_eq_true, if_false]
          have hmapne : ((legalMoves b).map fun i =>
              minimaxF f (b.set i (some human)) (d + 1) true ai human) ≠ [] := by
            simpa using hne
          obtain ⟨mn, hmn, hmem, hmin⟩ := listMin_spec hmapne
          rw [hmn, Option.getD_some]
          constructor
          · intro hall
            rcases List.mem_map.mp hmem with ⟨i, hil, hscore⟩
            obtain ⟨hilt, hie⟩ := mem_legalMoves.mp hil
            have hnc := noneCount_set (m := human) hilt hie
            have hlen : (b.set i (some human)).length = 9 := by simp [hb]
            have hci := List.all_eq_true.mp hall i ((mem_orderedMoves hb).mpr hil)
            have hstep := (ih (b.set i (some human)) (d + 1) true hlen
              (by omega) (by omega)).mp hci
            rw [hscore] at hstep
            exact hstep
          · intro h0
            refine List.all_eq_true.mpr ?_
            intro i hio
            have hil : i ∈ legalMoves b := (mem_orderedMoves hb).mp hio
            obtain ⟨hilt, hie⟩ := mem_legalMoves.mp hil
            have hnc := noneCount_set (m := human) hilt hie
            have hlen : (b.set i (some human)).length = 9 := by simp [hb]
            refine (ih (b.set i (some human)) (d + 1) true hlen (by omega) (by omega)).mpr ?_
            refine le_trans h0 (hmin _ ?_)
            exact List.mem_map.mpr ⟨i, hil, rfl⟩
      · simp [hfull]
    · simp only [hw]
      have hd9 : d ≤ 9 := by omega
      by_cases hm : m = ai
      · subst hm
        rw [if_pos rfl]
        constructor
        · intro _
          omega
        · intro _
          simp
      · rw [if_neg hm]
        simp only [decide_eq_true_eq]
        constructor
        · intro h
          exact absurd h hm
        · intro h0
          exfalso
          omega

/-! The `bestMove` loop invariant: after walking any prefix of the indices,
`best` is the maximum root score of the legal cells seen so far, and `moves`
collects exactly the legal cells attaining it, in walk order. -/

theorem iMax_some (m s : Int) : iMax (some m) s = some (max m s) := rfl

theorem legalIn_range (b : Board) : legalIn b (List.range b.length) = legalMoves b := rfl

theorem bm_foldl_spec (b : Board) (ai human : Mark) (l : List Nat) :
    l.foldl (bmStep b ai human) (none, []) =
      (specBest b ai human l, specMoves b ai human l) := by
  induction l using List.reverseRecOn with
  | nil => rfl
  | append_singleton l x ih =>
    rw [List.foldl_append, ih, List.foldl_cons, List.foldl_nil]
    by_cases hx : cellAt b x = none
    · have hleg : legalIn b (l ++ [x]) = legalIn b l ++ [x] := by
        simp [legalIn, List.filter_append, hx]
      have hbest : specBest b ai human (l ++ [x]) =
          iMax (specBest b ai human l) (rootScore b ai human x) := by
        rw [specBest, hleg, List.map_append]
        simpa using listMax_append_singleton
      rcases hsb : specBest b ai human l with _ | m
      · have hsbL := hsb
        rw [specBest] at hsbL
        have hnil : legalIn b l = [] := by
          simpa using listMax_eq_none_iff.mp hsbL
        have hmv0 : specMoves b ai human l = [] := by
          rw [specMoves, hnil]
          rfl
        have hbx : specBest b ai human (l ++ [x]) = some (rootScore b ai human x) := by
          rw [hbest, hsb]
          rfl
        have hmv : specMoves b ai human (l ++ [x]) = [x] := by
          rw [specMoves, hleg, hnil, List.nil_append, hbx]
          simp
        rw [hbx, hmv, hmv0]
        simp [bmStep, hx, hsb]
      · have hsbL := hsb
        rw [specBest] at hsbL
        have hmapne : ((legalIn b l).map (rootScore b ai human)) ≠ [] := by
          intro hmap
          rw [hmap] at hsbL
          exact Option.noConfusion hsbL
        obtain ⟨m', hm', hmem', hmax'⟩ := listMax_spec hmapne
        rw [hsbL] at hm'
        injection hm' with hm'e
        subst hm'e
        have hub : ∀ j ∈ legalIn b l, rootScore b ai human j ≤ m := by
          intro j hj
          exact hmax' _ (List.mem_map.mpr ⟨j, hj, rfl⟩)
        rcases lt_trichotomy m (rootScore b ai human x) with hlt | heq | hgt
        · have hbx : specBest b ai human (l ++ [x]) = some (rootScore b ai human x) := by
            rw [hbest, hsb, iMax_some, max_eq_right (le_of_lt hlt)]
          have hdrop : (legalIn b l).filter
              (fun i => decide (some (rootScore b ai human x) = some (rootScore b ai human i))) = [] := by
            rw [List.filter_eq_nil_iff]
            intro j hj
            simp only [decide_eq_true_eq, Option.some_inj]
            intro hcontra
            exact absurd (hcontra ▸ hub j hj) (not_le.mpr hlt)
          have hmv : specMoves b ai human (l ++ [x]) = [x] := by
            rw [specMoves, hleg, List.filter_append, hbx, hdrop, List.nil_append]
            simp
          rw [hbx, hmv]
          simp [bmStep, hx, hsb, hlt]
        · have hbx : specBest b ai human (l ++ [x]) = some m := by
            rw [hbest, hsb, iMax_some, ← heq, max_self]
          have hmv : specMoves b ai human (l ++ [x]) = specMoves b ai human l ++ [x] := by
            rw [specMoves, hleg, List.filter_append, hbx]
            rw [specMoves, hsb]
            simp [← heq]
          rw [hbx, hmv]
          simp [bmStep, hx, hsb, ← heq]
        · have hbx : specBest b ai human (l ++ [x]) = some m := by
            rw [hbest, hsb, iMax_some, max_eq_left (le_of_lt hgt)]
          have hdropx : [x].filter
              (fun i => decide (some m = some (rootScore b ai human i))) = [] := by
            simp only [List.filter, decide_eq_true_eq, Option.some_inj]
            rw [decide_eq_false (by intro hcontra; exact absurd hcontra.symm (ne_of_lt hgt))]
          have hmv : specMoves b ai human (l ++ [x]) = specMoves b ai human l := by
            rw [specMoves, hleg, List.filter_append, hbx, hdropx, List.append_nil]
            rw [specMoves, hsb]
          rw [hbx, hmv]
          have hne : ¬ (rootScore b ai human x = m) := ne_of_lt hgt
          simp [bmStep, hx, hsb, not_lt.mpr (le_of_lt hgt), hne]
    · have hleg : legalIn b (l ++ [x]) = legalIn b l := by
        simp [legalIn, List.filter_append, hx]
      have hbx : specBest b ai human (l ++ [x]) = specBest b ai human l := by
        rw [specBest, hleg, specBest]
      have hmv : specMoves b ai human (l ++ [x]) = specMoves b ai human l := by
        rw [specMoves, hleg, hbx]
        rw [specMoves]
      rw [hbx, hmv]
      simp [bmStep, hx]

theorem bestMoves_eq_specMoves (b : Board) (ai human : Mark) :
    bestMoves b ai human = specMoves b ai human (List.range b.length) := by
  rw [bestMoves, bm_foldl_spec]

theorem mem_bestMoves {b : Board} {ai human : Mark} {i : Nat} :
    i ∈ bestMoves b ai human ↔
      i ∈ legalMoves b ∧
        ∀ j ∈ legalMoves b, rootScore b ai human j ≤ rootScore b ai human i := by
  rw [bestMoves_eq_specMoves, specMoves, legalIn_range, List.mem_filter]
  constructor
  · rintro ⟨hi, hp⟩
    simp only [decide_eq_true_eq] at hp
    refine ⟨hi, ?_⟩
    intro j hj
    have hmapne : ((legalMoves b).map (rootScore b ai human)) ≠ [] := by
      intro hmap
      have hleg := List.map_eq_nil_iff.mp hmap
      rw [hleg] at hi
      simp at hi
    obtain ⟨m', hm', hmem', hmax'⟩ := listMax_spec hmapne
    rw [specBest, legalIn_range, hm'] at hp
    injection hp with hpe
    rw [← hpe]
    exact hmax' _ (List.mem_map.mpr ⟨j, hj, rfl⟩)
  · rintro ⟨hi, hmax⟩
    refine ⟨hi, ?_⟩
    simp only [decide_eq_true_eq]
    have hmapne : ((legalMoves b).map (rootScore b ai human)) ≠ [] := by
      intro hmap
      have hleg := List.map_eq_nil_iff.mp hmap
      rw [hleg] at hi
      simp at hi
    obtain ⟨m', hm', hmem', hmax'⟩ := listMax_spec hmapne
    rw [specBest, legalIn_range, hm']
    rcases List.mem_map.mp hmem' with ⟨j0, hj0, hs0⟩
    have h1 : m' ≤ rootScore b ai human i := by
      rw [← hs0]
      exact hmax j0 hj0
    have h2 : rootScore b ai human i ≤ m' :=
      hmax' _ (List.mem_map.mpr ⟨i, hi, rfl⟩)
    rw [le_antisymm h2 h1]

theorem bestMoves_ne_nil {b : Board} {ai human : Mark} (h : legalMoves b ≠ []) :
    bestMoves b ai human ≠ [] := by
  have hmapne : ((legalMoves b).map (rootScore b ai human)) ≠ [] := by
    simpa using h
  obtain ⟨m', hm', hmem', hmax'⟩ := listMax_spec hmapne
  rcases List.mem_map.mp hmem' with ⟨j0, hj0, hs0⟩
  have : j0 ∈ bestMoves b ai human := by
    rw [mem_bestMoves]
    refine ⟨hj0, ?_⟩
    intro j hj
    rw [hs0]
    exact hmax' _ (List.mem_map.mpr ⟨j, hj, rfl⟩)
  exact List.ne_nil_of_mem this

theorem bestMoves_eq_nil_of_full {b : Board} {ai human : Mark}
    (h : legalMoves b = []) : bestMoves b ai human = [] := by
  rw [bestMoves_eq_specMoves, specMoves, legalIn_range, h]
  rfl

/-! Fuel irrelevance for the pruned search, and the concrete draw
certificate for the empty board. -/

theorem any_congr_mem {α : Type} {l : List α} {p q : α → Bool}
    (h : ∀ x ∈ l, p x = q x) : l.any p = l.any q := by
  induction l with
  | nil => rfl
  | cons a t ih =>
    rw [List.any_cons, List.any_cons, h a (List.mem_cons_self a t),
      ih fun x hx => h x (List.mem_cons_of_mem a hx)]

theorem all_congr_mem {α : Type} {l : List α} {p q : α → Bool}
    (h : ∀ x ∈ l, p x = q x) : l.all p = l.all q := by
  induction l with
  | nil => rfl
  | cons a t ih =>
    rw [List.all_cons, List.all_cons, h a (List.mem_cons_self a t),
      ih fun x hx => h x (List.mem_cons_of_mem a hx)]

theorem canDrawF_fuel (ai human : Mark) :
    ∀ (f1 : Nat) (b : Board) (isMax : Bool) (f2 : Nat), b.length = 9 →
      noneCount b < f1 → noneCount b < f2 →
      canDrawF f1 b isMax ai human = canDrawF f2 b isMax ai human := by
  intro f1
  induction f1 with
  | zero =>
    intro b _ _ _ h _
    exact absurd h (by omega)
  | succ f1' ih =>
    intro b isMax f2 hb h1 h2
    cases f2 with
    | zero => exact absurd h2 (by omega)
    | succ f2' =>
      rw [canDrawF_succ, canDrawF_succ]
      rcases hw : winnerInfo b with _ | p
      · simp only [hw]
        rcases hfull : isFull b with _ | _
        · simp only [hfull, Bool.false_eq_true, if_false]
          cases isMax with
          | true =>
            simp only [if_true]
            apply any_congr_mem
            intro i hio
            have hil := (mem_orderedMoves hb).mp hio
            obtain ⟨hilt, hie⟩ := mem_legalMoves.mp hil
            have hnc := noneCount_set (m := ai) hilt hie
            exact ih _ false f2' (by simp [hb]) (by omega) (by omega)
          | false =>
            simp only [Bool.false_eq_true, if_false]
            apply all_congr_mem
            intro i hio
            have hil := (mem_orderedMoves hb).mp hio
            obtain ⟨hilt, hie⟩ := mem_legalMoves.mp hil
            have hnc := noneCount_set (m := human) hilt hie
            exact ih _ true f2' (by simp [hb]) (by omega) (by omega)
        · simp [hfull]
      · simp [hw]

theorem canDraw9_succ (fuel : Nat) (v : B9) (isMax : Bool) (ai human : Mark) :
    canDraw9 (fuel + 1) v isMax ai human =
      match scan9 v with
      | some m => decide (m = ai)
      | none =>
        if full9 v then true
        else if isMax then
          (if v.c4 = none then canDraw9 fuel { v with c4 := some ai } false ai human else false) ||
          ((if v.c6 = none then canDraw9 fuel { v with c6 := some ai } false ai human else false) ||
          ((if v.c2 = none then canDraw9 fuel { v with c2 := some ai } false ai human else false) ||
          ((if v.c0 = none then canDraw9 fuel { v with c0 := some ai } false ai human else false) ||
          ((if v.c8 = none then canDraw9 fuel { v with c8 := some ai } false ai human else false) ||
          ((if v.c7 = none then canDraw9 fuel { v with c7 := some ai } false ai human else false) ||
          ((if v.c1 = none then canDraw9 fuel { v with c1 := some ai } false ai human else false) ||
          ((if v.c5 = none then canDraw9 fuel { v with c5 := some ai } false ai human else false) ||
          ((if v.c3 = none then canDraw9 fuel { v with c3 := some ai } false ai human else false) ||
          false))))))))
        else
          (if v.c4 = none then canDraw9 fuel { v with c4 := some human } true ai human else true) &&
          ((if v.c6 = none then canDraw9 fuel { v with c6 := some human } true ai human else true) &&
          ((if v.c2 = none then canDraw9 fuel { v with c2 := some human } true ai human else true) &&
          ((if v.c0 = none then canDraw9 fuel { v with c0 := some human } true ai human else true) &&
          ((if v.c8 = none then canDraw9 fuel { v with c8 := some human } true ai human else true) &&
          ((if v.c7 = none then canDraw9 fuel { v with c7 := some human } true ai human else true) &&
          ((if v.c1 = none then canDraw9 fuel { v with c1 := some human } true ai human else true) &&
          ((if v.c5 = none then canDraw9 fuel { v with c5 := some human } true ai human else true) &&
          ((if v.c3 = none then canDraw9 fuel { v with c3 := some human } true ai human else true) &&
          true)))))))) := by
  rw [canDraw9]

theorem checkLine_eq_checkL {b : Board} {l : Nat × Nat × Nat} :
    checkLine b l =
      (checkL (cellAt b l.1) (cellAt b l.2.1) (cellAt b l.2.2)).map fun m => (m, l) := by
  rcases hx : cellAt b l.1 with _ | m
  · simp [checkLine, checkL, hx]
  · simp only [checkLine, checkL, hx]
    by_cases hc : cellAt b l.2.1 = some m ∧ cellAt b l.2.2 = some m
    · simp [hc]
    · simp [hc]

theorem scan9_eq (v : B9) : (winnerInfo (toList v)).map Prod.fst = scan9 v := by
  obtain ⟨c0, c1, c2, c3, c4, c5, c6, c7, c8⟩ := v
  have e0 : cellAt (toList ⟨c0, c1, c2, c3, c4, c5, c6, c7, c8⟩) 0 = c0 := rfl
  have e1 : cellAt (toList ⟨c0, c1, c2, c3, c4, c5, c6, c7, c8⟩) 1 = c1 := rfl
  have e2 : cellAt (toList ⟨c0, c1, c2, c3, c4, c5, c6, c7, c8⟩) 2 = c2 := rfl
  have e3 : cellAt (toList ⟨c0, c1, c2, c3, c4, c5, c6, c7, c8⟩) 3 = c3 := rfl
  have e4 : cellAt (toList ⟨c0, c1, c2, c3, c4, c5, c6, c7, c8⟩) 4 = c4 := rfl
  have e5 : cellAt (toList ⟨c0, c1, c2, c3, c4, c5, c6, c7, c8⟩) 5 = c5 := rfl
  have e6 : cellAt (toList ⟨c0, c1, c2, c3, c4, c5, c6, c7, c8⟩) 6 = c6 := rfl
  have e7 : cellAt (toList ⟨c0, c1, c2, c3, c4, c5, c6, c7, c8⟩) 7 = c7 := rfl
  have e8 : cellAt (toList ⟨c0, c1, c2, c3, c4, c5, c6, c7, c8⟩) 8 = c8 := rfl
  rw [winnerInfo]
  simp only [LINES, List.findSome?_cons, List.findSome?_nil, checkLine_eq_checkL, scan9,
    e0, e1, e2, e3, e4, e5, e6, e7, e8]
  rcases h0 : checkL c0 c1 c2 with _ | m0
  · simp only [h0, Option.map_none']
    rcases h1 : checkL c3 c4 c5 with _ | m1
    · simp only [h1, Option.map_none']
      rcases h2 : checkL c6 c7 c8 with _ | m2
      · simp only [h2, Option.map_none']
        rcases h3 : checkL c0 c3 c6 with _ | m3
        · simp only [h3, Option.map_none']
          rcases h4 : checkL c1 c4 c7 with _ | m4
          · simp only [h4, Option.map_none']
            rcases h5 : checkL c2 c5 c8 with _ | m5
            · simp only [h5, Option.map_none']
              rcases h6 : checkL c0 c4 c8 with _ | m6
              · simp only [h6, Option.map_none']
                rcases h7 : checkL c2 c4 c6 with _ | m7
                · simp [h7]
                · simp [h7]
              · simp [h6]
            · simp [h5]
          · simp [h4]
        · simp [h3]
      · simp [h2]
    · simp [h1]
  · simp [h0]

theorem filter_any_step (p f : Nat → Bool) (i : Nat) (rest : List Nat) :
    ((i :: rest).filter p).any f = ((if p i then f i else false) || (rest.filter p).any f) := by
  by_cases h : p i = true
  · simp [List.filter_cons, h]
  · simp [List.filter_cons, h]

theorem filter_all_step (p f : Nat → Bool) (i : Nat) (rest : List Nat) :
    ((i :: rest).filter p).all f = ((if p i then f i else true) && (rest.filter p).all f) := by
  by_cases h : p i = true
  · simp [List.filter_cons, h]
  · simp [List.filter_cons, h]

theorem canDraw9_eq :
    ∀ (fuel : Nat) (v : B9) (isMax : Bool) (ai human : Mark),
      canDraw9 fuel v isMax ai human = canDrawF fuel (toList v) isMax ai human := by
  intro fuel
  induction fuel with
  | zero => intro v isMax ai hu; rfl
  | succ f ih =>
    intro v isMax ai hu
    obtain ⟨c0, c1, c2, c3, c4, c5, c6, c7, c8⟩ := v
    have hscan := scan9_eq ⟨c0, c1, c2, c3, c4, c5, c6, c7, c8⟩
    rw [canDraw9_succ, canDrawF_succ]
    rcases hs : scan9 ⟨c0, c1, c2, c3, c4, c5, c6, c7, c8⟩ with _ | m
    · have hw : winnerInfo (toList ⟨c0, c1, c2, c3, c4, c5, c6, c7, c8⟩) = none := by
        rw [hs] at hscan
        exact Option.map_eq_none'.mp hscan
      simp only [hs, hw]
      have hfull : isFull (toList ⟨c0, c1, c2, c3, c4, c5, c6, c7, c8⟩) =
          full9 ⟨c0, c1, c2, c3, c4, c5, c6, c7, c8⟩ := rfl
      rw [hfull]
      by_cases hf : full9 ⟨c0, c1, c2, c3, c4, c5, c6, c7, c8⟩ = true
      · simp [hf]
      · simp only [Bool.not_eq_true] at hf
        simp only [hf, Bool.false_eq_true, if_false]
        have e0 : cellAt (toList ⟨c0, c1, c2, c3, c4, c5, c6, c7, c8⟩) 0 = c0 := rfl
        have e1 : cellAt (toList ⟨c0, c1, c2, c3, c4, c5, c6, c7, c8⟩) 1 = c1 := rfl
        have e2 : cellAt (toList ⟨c0, c1, c2, c3, c4, c5, c6, c7, c8⟩) 2 = c2 := rfl
        have e3 : cellAt (toList ⟨c0, c1, c2, c3, c4, c5, c6, c7, c8⟩) 3 = c3 := rfl
        have e4 : cellAt (toList ⟨c0, c1, c2, c3, c4, c5, c6, c7, c8⟩) 4 = c4 := rfl
        have e5 : cellAt (toList ⟨c0, c1, c2, c3, c4, c5, c6, c7, c8⟩) 5 = c5 := rfl
        have e6 : cellAt (toList ⟨c0, c1, c2, c3, c4, c5, c6, c7, c8⟩) 6 = c6 := rfl
        have e7 : cellAt (toList ⟨c0, c1, c2, c3, c4, c5, c6, c7, c8⟩) 7 = c7 := rfl
        have e8 : cellAt (toList ⟨c0, c1, c2, c3, c4, c5, c6, c7, c8⟩) 8 = c8 := rfl
        have s0 : ∀ x : Cell, (toList ⟨c0, c1, c2, c3, c4, c5, c6, c7, c8⟩).set 0 x =
            toList ⟨x, c1, c2, c3, c4, c5, c6, c7, c8⟩ := fun x => rfl
        have s1 : ∀ x : Cell, (toList ⟨c0, c1, c2, c3, c4, c5, c6, c7, c8⟩).set 1 x =
            toList ⟨c0, x, c2, c3, c4, c5, c6, c7, c8⟩ := fun x => rfl
        have s2 : ∀ x : Cell, (toList ⟨c0, c1, c2, c3, c4, c5, c6, c7, c8⟩).set 2 x =
            toList ⟨c0, c1, x, c3, c4, c5, c6, c7, c8⟩ := fun x => rfl
        have s3 : ∀ x : Cell, (toList ⟨c0, c1, c2, c3, c4, c5, c6, c7, c8⟩).set 3 x =
            toList ⟨c0, c1, c2, x, c4, c5, c6, c7, c8⟩ := fun x => rfl
        have s4 : ∀ x : Cell, (toList ⟨c0, c1, c2, c3, c4, c5, c6, c7, c8⟩).set 4 x =
            toList ⟨c0, c1, c2, c3, x, c5, c6, c7, c8⟩ := fun x => rfl
        have s5 : ∀ x : Cell, (toList ⟨c0, c1, c2, c3, c4, c5, c6, c7, c8⟩).set 5 x =
            toList ⟨c0, c1, c2, c3, c4, x, c6, c7, c8⟩ := fun x => rfl
        have s6 : ∀ x : Cell, (toList ⟨c0, c1, c2, c3, c4, c5, c6, c7, c8⟩).set 6 x =
            toList ⟨c0, c1, c2, c3, c4, c5, x, c7, c8⟩ := fun x => rfl
        have s7 : ∀ x : Cell, (toList ⟨c0, c1, c2, c3, c4, c5, c6, c7, c8⟩).set 7 x =
            toList ⟨c0, c1, c2, c3, c4, c5, c6, x, c8⟩ := fun x => rfl
        have s8 : ∀ x : Cell, (toList ⟨c0, c1, c2, c3, c4, c5, c6, c7, c8⟩).set 8 x =
            toList ⟨c0, c1, c2, c3, c4, c5, c6, c7, x⟩ := fun x => rfl
        cases isMax with
        | true =>
          rw [orderedMoves]
          simp only [if_true, filter_any_step, List.filter_nil, List.any_nil,
            e0, e1, e2, e3, e4, e5, e6, e7, e8, decide_eq_true_eq,
            s0, s1, s2, s3, s4, s5, s6, s7, s8, ih]
        | false =>
          rw [orderedMoves]
          simp only [Bool.false_eq_true, if_false, filter_all_step, List.filter_nil,
            List.all_nil, e0, e1, e2, e3, e4, e5, e6, e7, e8, decide_eq_true_eq,
            s0, s1, s2, s3, s4, s5, s6, s7, s8, ih]
    · rw [hs] at hscan
      rcases Option.map_eq_some'.mp hscan with ⟨⟨m', l⟩, hw, hm⟩
      simp only [] at hm
      subst hm
      simp only [hs, hw]

set_option maxRecDepth 20000 in
set_option maxHeartbeats 4000000 in
/-- The concrete certificate: playing second with `O` against `X`, the
computer cannot be beaten from the empty board.  Evaluated on the flat
representation and transported along `canDraw9_eq`. -/
theorem canDraw_empty : canDrawF 10 emptyBoard false Mark.O Mark.X = true := by
  have h := canDraw9_eq 10 ⟨none, none, none, none, none, none, none, none, none⟩
    false Mark.O Mark.X
  rw [show toList ⟨none, none, none, none, none, none, none, none, none⟩ = emptyBoard
    from rfl] at h
  rw [← h]
  decide

/-! The C4 invariant: every reachable state keeps the draw certificate. -/

theorem Reach.board_length {b : Board} {t : Bool} (h : Reach b t) : b.length = 9 := by
  induction h with
  | init => simp [emptyBoard]
  | humanMove hr hw hfull hj ih => simpa using ih
  | compMove hr hw hmem ih => simpa using ih

theorem cellAt_of_get? {b : Board} {i : Nat} (h : b.get? i = some none) :
    cellAt b i = none := by
  rw [List.get?_eq_getElem?] at h
  simp [cellAt, List.getD_eq_getElem?_getD, h]

theorem Reach.canDraw {b : Board} {t : Bool} (h : Reach b t) :
    canDrawF 10 b (!t) Mark.O Mark.X = true := by
  induction h with
  | init => exact canDraw_empty
  | @humanMove b j hr hw hfull hj ih =>
    have hb : b.length = 9 := hr.board_length
    obtain ⟨hjl, -⟩ := List.get?_eq_some.mp hj
    have hje : cellAt b j = none := cellAt_of_get? hj
    have ih' : canDrawF (9 + 1) b false Mark.O Mark.X = true := ih
    rw [canDrawF_succ] at ih'
    simp only [hw, hfull, Bool.false_eq_true, if_false] at ih'
    have hmem : j ∈ orderedMoves b :=
      (mem_orderedMoves hb).mpr (mem_legalMoves.mpr ⟨hjl, hje⟩)
    have hcd9 := List.all_eq_true.mp ih' j hmem
    have hnc := noneCount_set (m := Mark.X) hjl hje
    have h9 : noneCount b ≤ 9 := hb ▸ noneCount_le_length
    have hlen : (b.set j (some Mark.X)).length = 9 := by simp [hb]
    have hlift := canDrawF_fuel Mark.O Mark.X 9 (b.set j (some Mark.X)) true 10 hlen (by omega) (by omega)
    simp only [Bool.not_false]
    exact hlift ▸ hcd9
  | @compMove b i hr hw hmem ih =>
    have hb : b.length = 9 := hr.board_length
    obtain ⟨hil, hmax⟩ := mem_bestMoves.mp hmem
    obtain ⟨hilt, hie⟩ := mem_legalMoves.mp hil
    have hne : legalMoves b ≠ [] := List.ne_nil_of_mem hil
    have hfull : isFull b = false := by
      rcases hfb : isFull b with _ | _
      · rfl
      · exact absurd (legalMoves_eq_nil_iff.mpr hfb) hne
    have ih' : canDrawF (9 + 1) b true Mark.O Mark.X = true := ih
    rw [canDrawF_succ] at ih'
    simp only [hw, hfull, Bool.false_eq_true, if_false, if_true] at ih'
    rcases List.any_eq_true.mp ih' with ⟨c, hco, hcd⟩
    have hcl := (mem_orderedMoves hb).mp hco
    obtain ⟨hclt, hce⟩ := mem_legalMoves.mp hcl
    have hncc := noneCount_set (m := Mark.O) hclt hce
    have h9 : noneCount b ≤ 9 := hb ▸ noneCount_le_length
    have hclen : (b.set c (some Mark.O)).length = 9 := by simp [hb]
    have hcd10 : canDrawF 10 (b.set c (some Mark.O)) false Mark.O Mark.X = true :=
      (canDrawF_fuel Mark.O Mark.X 9 (b.set c (some Mark.O)) false 10 hclen (by omega) (by omega)) ▸ hcd
    have hscorec : 0 ≤ rootScore b Mark.O Mark.X c := by
      have hmm := (canDraw_iff Mark.O Mark.X 10 (b.set c (some Mark.O)) 0 false hclen
        (by omega) (by omega)).mp hcd10
      rw [rootScore, minimax, hclen]
      exact hmm
    have hscorei : 0 ≤ rootScore b Mark.O Mark.X i := le_trans hscorec (hmax c hcl)
    have hnci := noneCount_set (m := Mark.O) hilt hie
    have hilen : (b.set i (some Mark.O)).length = 9 := by simp [hb]
    simp only [Bool.not_true]
    refine (canDraw_iff Mark.O Mark.X 10 (b.set i (some Mark.O)) 0 false hilen
      (by omega) (by omega)).mpr ?_
    rw [rootScore, minimax, hilen] at hscorei
    exact hscorei

/-! Restoration: the stateful search hands back exactly the board it was
given. -/

theorem searchLoopS_board (f : Board → Int × Board) (mark : Mark)
    (combine : Option Int → Int → Option Int)
    (hf : ∀ nb, (f nb).2 = nb) :
    ∀ (l : List Nat) (b : Board) (acc : Option Int),
      (searchLoopS f mark combine l b acc).2 = b := by
  intro l
  induction l with
  | nil => intro b acc; rfl
  | cons i rest ih =>
    intro b acc
    rw [searchLoopS]
    by_cases hc : cellAt b i = none
    · rw [if_pos hc]
      simp only []
      rw [ih, hf, set_restore hc]
    · rw [if_neg hc]
      exact ih b acc

theorem minimaxS_board :
    ∀ (fuel : Nat) (b : Board) (d : Nat) (isMax : Bool) (ai human : Mark),
      (minimaxS fuel b d isMax ai human).2 = b := by
  intro fuel
  induction fuel with
  | zero => intro b _ _ _ _; rfl
  | succ f ih =>
    intro b d isMax ai human
    rw [minimaxS]
    rcases hw : winnerInfo b with _ | p
    · simp only []
      by_cases hfull : isFull b = true
      · simp [hfull]
      · rw [if_neg hfull]
        cases isMax with
        | true =>
          rw [if_pos rfl]
          exact searchLoopS_board _ ai iMax (fun nb => ih nb (d + 1) false ai human) _ b none
        | false =>
          rw [if_neg (by simp)]
          exact searchLoopS_board _ human iMin (fun nb => ih nb (d + 1) true ai human) _ b none
    · simp [hw]

theorem bmLoopS_board (ai human : Mark) :
    ∀ (l : List Nat) (b : Board) (st : Option Int × List Nat),
      (bmLoopS ai human l b st).2 = b := by
  intro l
  induction l with
  | nil => intro b st; rfl
  | cons i rest ih =>
    intro b st
    rw [bmLoopS]
    by_cases hc : cellAt b i = none
    · rw [if_pos hc]
      simp only []
      rw [ih, minimaxS_board, set_restore hc]
    · rw [if_neg hc]
      exact ih b st

/-! The claim theorems. -/

theorem mark_cases : ∀ (m a h : Mark), a ≠ h → m = a ∨ m = h := by
  intro m a h hne
  cases m <;> cases a <;> cases h <;> simp_all

/-- C1: on a board with at least one empty cell, `bestMove` always returns an
index, the returned index is a member of the candidate list `moves`, the
candidates are exactly the empty cells whose root minimax score attains the
maximum over all empty cells, and every candidate is returned for some draw
of the random source. -/
theorem bestMove_argmax (b : Board) (ai human : Mark) (i0 : Nat)
    (h0 : i0 < b.length) (he : cellAt b i0 = none) :
    (∀ r : Nat, ∃ i, bestMove b ai human r = some i ∧ i ∈ bestMoves b ai human) ∧
    (∀ i, i ∈ bestMoves b ai human ↔
      (i < b.length ∧ cellAt b i = none ∧
        ∀ j, j < b.length → cellAt b j = none →
          rootScore b ai human j ≤ rootScore b ai human i)) ∧
    (∀ i, i ∈ bestMoves b ai human → ∃ r : Nat, bestMove b ai human r = some i) := by
  have hne : legalMoves b ≠ [] := List.ne_nil_of_mem (mem_legalMoves.mpr ⟨h0, he⟩)
  have hbne : bestMoves b ai human ≠ [] := bestMoves_ne_nil hne
  have hemp : ¬ ((bestMoves b ai human).isEmpty = true) := by
    simp [List.isEmpty_iff, hbne]
  refine ⟨?_, ?_, ?_⟩
  · intro r
    have hlt : r % (bestMoves b ai human).length < (bestMoves b ai human).length :=
      Nat.mod_lt _ (List.length_pos.mpr hbne)
    refine ⟨(bestMoves b ai human).get ⟨r % (bestMoves b ai human).length, hlt⟩, ?_, ?_⟩
    · rw [bestMove]
      simp only [hemp, if_false]
      exact List.get?_eq_get hlt
    · exact List.get_mem _ _ hlt
  · intro i
    rw [mem_bestMoves]
    constructor
    · rintro ⟨hil, hmax⟩
      obtain ⟨hlt, hce⟩ := mem_legalMoves.mp hil
      exact ⟨hlt, hce, fun j hj hcj => hmax j (mem_legalMoves.mpr ⟨hj, hcj⟩)⟩
    · rintro ⟨hlt, hce, hmax⟩
      refine ⟨mem_legalMoves.mpr ⟨hlt, hce⟩, ?_⟩
      intro j hjl
      obtain ⟨hj1, hj2⟩ := mem_legalMoves.mp hjl
      exact hmax j hj1 hj2
  · intro i hi
    obtain ⟨k, hk⟩ := List.mem_iff_get.mp hi
    refine ⟨k, ?_⟩
    rw [bestMove]
    simp only [hemp, if_false]
    have hmod : (k : Nat) % (bestMoves b ai human).length = k := Nat.mod_eq_of_lt k.isLt
    rw [hmod, List.get?_eq_get k.isLt, hk]
    simp

/-- C1 witness: on the board with a single empty cell (index 8) the engine
returns an index drawn from its candidate list. -/
theorem bestMove_argmax_witness :
    ∃ i, bestMove wbOneEmpty Mark.O Mark.X 0 = some i ∧
      i ∈ bestMoves wbOneEmpty Mark.O Mark.X :=
  (bestMove_argmax wbOneEmpty Mark.O Mark.X 8 (by decide) (by decide)).1 0

/-- C2: terminal scoring of the minimax evaluation.  The first three parts
score the state exactly as the winner scan reports it: a line of
`computerMark` gives `10 - depth`, a line of `humanMark` gives `depth - 10`,
and a full board with no winner gives `0`.  The last two parts phrase the
same facts directly in terms of which mark owns a completed line (assuming
the other mark owns none, the only situation legal play can produce). -/
theorem minimax_terminal_scores (b : Board) (d : Nat) (isMax : Bool) (ai human : Mark) :
    (∀ m l, winnerInfo b = some (m, l) → m = ai →
      minimax b d isMax ai human = 10 - (d : Int)) ∧
    (∀ m l, winnerInfo b = some (m, l) → m = human → ai ≠ human →
      minimax b d isMax ai human = (d : Int) - 10) ∧
    (winnerInfo b = none → isFull b = true → minimax b d isMax ai human = 0) ∧
    (ai ≠ human → (∃ l ∈ LINES, lineFilled b l ai) →
      (∀ l ∈ LINES, ¬ lineFilled b l human) →
      minimax b d isMax ai human = 10 - (d : Int)) ∧
    (ai ≠ human → (∃ l ∈ LINES, lineFilled b l human) →
      (∀ l ∈ LINES, ¬ lineFilled b l ai) →
      minimax b d isMax ai human = (d : Int) - 10) := by
  have h1 : ∀ m l, winnerInfo b = some (m, l) → m = ai →
      minimax b d isMax ai human = 10 - (d : Int) := by
    intro m l hw hm
    rw [minimax, minimaxF_succ]
    simp only [hw]
    rw [if_pos hm]
  have h2 : ∀ m l, winnerInfo b = some (m, l) → m = human → ai ≠ human →
      minimax b d isMax ai human = (d : Int) - 10 := by
    intro m l hw hm hne
    rw [minimax, minimaxF_succ]
    simp only [hw]
    rw [if_neg (by rw [hm]; exact fun hc => hne hc.symm)]
  refine ⟨h1, h2, ?_, ?_, ?_⟩
  · intro hw hfull
    rw [minimax, minimaxF_succ]
    simp only [hw, hfull, if_true]
  · intro hne hex hno
    rcases hex with ⟨l, hl, hf⟩
    rcases ho : winnerInfo b with _ | ⟨m', l'⟩
    · exact absurd ho (winnerInfo_ne_none_of_filled hl hf)
    · obtain ⟨hf', hl', -⟩ := winnerInfo_eq_some_elim ho
      rcases mark_cases m' ai human hne with hm | hm
      · exact h1 m' l' ho hm
      · exact absurd (hm ▸ hf') (hno l' hl')
  · intro hne hex hno
    rcases hex with ⟨l, hl, hf⟩
    rcases ho : winnerInfo b with _ | ⟨m', l'⟩
    · exact absurd ho (winnerInfo_ne_none_of_filled hl hf)
    · obtain ⟨hf', hl', -⟩ := winnerInfo_eq_some_elim ho
      rcases mark_cases m' ai human hne with hm | hm
      · exact absurd (hm ▸ hf') (hno l' hl')
      · exact h2 m' l' ho hm hne

/-- C2 witness: the three terminal shapes at depth 3 and 2 on concrete
boards. -/
theorem minimax_terminal_scores_witness :
    minimax wbRow 3 false Mark.X Mark.O = 10 - (3 : Int) ∧
    minimax wbRow 3 false Mark.O Mark.X = (3 : Int) - 10 ∧
    minimax wbDraw 2 true Mark.O Mark.X = 0 :=
  ⟨(minimax_terminal_scores wbRow 3 false Mark.X Mark.O).1 Mark.X (0, 1, 2) (by decide) rfl,
   (minimax_terminal_scores wbRow 3 false Mark.O Mark.X).2.1 Mark.X (0, 1, 2) (by decide) rfl
     (by decide),
   (minimax_terminal_scores wbDraw 2 true Mark.O Mark.X).2.2.1 (by decide) (by decide)⟩

/-- C3: the winner scan reports a result exactly when some of the 8 lines is
uniformly one non-empty mark; a reported result is a filled line, it lies in
`LINES`, and it is the first filled line in the fixed scan order (rows, then
columns, then diagonals); the empty board has no winner. -/
theorem winnerInfo_spec :
    (∀ b : Board,
      ((∃ r, winnerInfo b = some r) ↔ ∃ l ∈ LINES, ∃ m : Mark, lineFilled b l m) ∧
      (∀ m l, winnerInfo b = some (m, l) →
        lineFilled b l m ∧ l ∈ LINES ∧
          ∃ l1 l2, LINES = l1 ++ l :: l2 ∧
            ∀ l' ∈ l1, ∀ m' : Mark, ¬ lineFilled b l' m')) ∧
    winnerInfo emptyBoard = none := by
  refine ⟨?_, by decide⟩
  intro b
  constructor
  · constructor
    · rintro ⟨⟨m, l⟩, hr⟩
      have h := winnerInfo_eq_some_elim hr
      exact ⟨l, h.2.1, m, h.1⟩
    · rintro ⟨l, hl, m, hf⟩
      rcases ho : winnerInfo b with _ | r
      · exact absurd ho (winnerInfo_ne_none_of_filled hl hf)
      · exact ⟨r, rfl⟩
  · intro m l hr
    exact winnerInfo_eq_some_elim hr

/-- C3 witness: the top-row board has a winner, and the scan reports exactly
that first line. -/
theorem winnerInfo_spec_witness :
    (∃ r, winnerInfo wbRow = some r) ∧
    lineFilled wbRow (0, 1, 2) Mark.X ∧ (0, 1, 2) ∈ LINES :=
  ⟨(winnerInfo_spec.1 wbRow).1.mpr ⟨(0, 1, 2), by decide, Mark.X, ⟨rfl, rfl, rfl⟩⟩,
   ((winnerInfo_spec.1 wbRow).2 Mark.X (0, 1, 2) (by decide)).1,
   ((winnerInfo_spec.1 wbRow).2 Mark.X (0, 1, 2) (by decide)).2.1⟩

/-- C4: when the human holds the first-moving mark `X` and the computer `O`,
no state reachable under arbitrary human play and any maximum-scoring
tie-break of `bestMove` is a human win.  Since `outcomeOf` yields
`InProgress` exactly on undecided non-full boards, a finished round
(`winnerInfo` reports a line or the board is full) therefore derives
`ComputerWin` or `Draw`. -/
theorem computer_never_loses (b : Board) (t : Bool) (h : Reach b t) :
    outcomeOf b Mark.X ≠ RoundOutcome.HumanWin := by
  intro hout
  have hcd : canDrawF (9 + 1) b (!t) Mark.O Mark.X = true := h.canDraw
  rw [canDrawF_succ] at hcd
  rcases hw : winnerInfo b with _ | ⟨m, l⟩
  · simp only [outcomeOf, hw] at hout
    rcases hfb : isFull b with _ | _ <;> simp [hfb] at hout
  · simp only [outcomeOf, hw] at hout
    simp only [hw] at hcd
    by_cases hm : m = Mark.X
    · subst hm
      simp at hcd
    · rw [if_neg hm] at hout
      exact RoundOutcome.noConfusion hout

/-- C4 witness: the theorem applied to the initial reachable state. -/
theorem computer_never_loses_witness :
    outcomeOf emptyBoard Mark.X ≠ RoundOutcome.HumanWin :=
  computer_never_loses emptyBoard true Reach.init

/-- C5: an illegal click — round already decided, not the human's turn, or a
cell already holding a mark — leaves the controller state (board, turn,
result, winning line and score included) unchanged. -/
theorem clickCell_illegal_noop (s : GameState) (idx : Nat)
    (h : s.result.isSome = true ∨ s.turn ≠ s.human ∨
      (∃ m : Mark, s.board.get? idx = some (some m))) :
    clickCell s idx = s := by
  rw [clickCell]
  split_ifs with h1 h2 h3
  · rfl
  · rfl
  · rfl
  · exfalso
    rcases h with h | h | ⟨m, h⟩
    · exact h1 h
    · exact h2 h
    · rw [not_not] at h3
      rw [h3] at h
      injection h with h'
      exact Option.noConfusion h'

/-- C5 witness: clicking an empty cell after the round is over changes
nothing. -/
theorem clickCell_illegal_noop_witness : clickCell wsOver 4 = wsOver :=
  clickCell_illegal_noop wsOver 4 (Or.inl (by decide))

theorem deriveResult_eq (s : GameState) :
    deriveResult s =
      { s with
        winLine :=
          match winnerInfo s.board with
          | some (_, l) => [l.1, l.2.1, l.2.2]
          | none => [],
        result :=
          match winnerInfo s.board with
          | some (m, _) => some (if m = s.human then RResult.human else RResult.ai)
          | none => if isFull s.board then some RResult.draw else none } := by
  rw [deriveResult]
  rcases hw : winnerInfo s.board with _ | p
  · simp only [hw]
    by_cases hf : isFull s.board = true <;> simp [hf]
  · simp only [hw]

/-- C6: entering a finished round bumps exactly the matching counter once
(wins for a human win, losses for a computer win, draws for a draw) and
records it in `scoredRef`; a tally whose outcome is already recorded changes
nothing; and re-running the derivation and tally effects is idempotent, so
repeated recomputation of the same round's completion never double-counts. -/
theorem scoreTally_spec :
    (∀ (s : GameState) (r : RResult), s.result = some r → s.scored ≠ some r →
      (scoreTally s).scored = some r ∧
      (r = RResult.human →
        (scoreTally s).score.wins = s.score.wins + 1 ∧
        (scoreTally s).score.losses = s.score.losses ∧
        (scoreTally s).score.draws = s.score.draws) ∧
      (r = RResult.ai →
        (scoreTally s).score.wins = s.score.wins ∧
        (scoreTally s).score.losses = s.score.losses + 1 ∧
        (scoreTally s).score.draws = s.score.draws) ∧
      (r = RResult.draw →
        (scoreTally s).score.wins = s.score.wins ∧
        (scoreTally s).score.losses = s.score.losses ∧
        (scoreTally s).score.draws = s.score.draws + 1)) ∧
    (∀ s : GameState, s.scored = s.result → scoreTally s = s) ∧
    (∀ s : GameState, applyEffects (applyEffects s) = applyEffects s) := by
  have htally : ∀ s : GameState, s.scored = s.result → scoreTally s = s := by
    intro s hs
    rw [scoreTally]
    rcases hr : s.result with _ | r
    · rfl
    · rw [hs, hr]
      simp
  refine ⟨?_, htally, ?_⟩
  · intro s r hres hsc
    cases r <;> simp [scoreTally, hres, hsc]
  · intro s
    rw [applyEffects, applyEffects]
    rcases hw : winnerInfo s.board with _ | ⟨m, l⟩
    · by_cases hf : isFull s.board = true
      · by_cases hsc : s.scored = some RResult.draw
        · simp [deriveResult_eq, scoreTally, hw, hf, hsc]
        · simp [deriveResult_eq, scoreTally, hw, hf, hsc]
      · simp [deriveResult_eq, scoreTally, hw, hf]
    · by_cases hmh : m = s.human
      · by_cases hsc : s.scored = some RResult.human
        · simp [deriveResult_eq, scoreTally, hw, hmh, hsc]
        · simp [deriveResult_eq, scoreTally, hw, hmh, hsc]
      · by_cases hsc : s.scored = some RResult.ai
        · simp [deriveResult_eq, scoreTally, hw, hmh, hsc]
        · simp [deriveResult_eq, scoreTally, hw, hmh, hsc]

/-- C6 witness: a freshly finished human win bumps `wins` exactly once, and a
second tally of the same outcome changes nothing. -/
theorem scoreTally_spec_witness :
    (scoreTally wsScore).scored = some RResult.human ∧
    (scoreTally wsScore).score.wins = wsScore.score.wins + 1 ∧
    (scoreTally wsScore).score.losses = wsScore.score.losses ∧
    scoreTally wsOver = wsOver :=
  ⟨(scoreTally_spec.1 wsScore RResult.human rfl (by decide)).1,
   ((scoreTally_spec.1 wsScore RResult.human rfl (by decide)).2.1 rfl).1,
   ((scoreTally_spec.1 wsScore RResult.human rfl (by decide)).2.1 rfl).2.1,
   scoreTally_spec.2.1 wsOver rfl⟩

/-- C7 counterexample: on a decided but not full board (X owns the top row)
`bestMove` does not return the absent move — it returns index 3. -/
theorem bestMove_decided_counterexample :
    winnerInfo wbRow ≠ none ∧ bestMove wbRow Mark.O Mark.X 0 = some 3 := by
  constructor
  · decide
  · decide

/-- C7 amended: `bestMove` returns the absent move exactly when the board is
full; a merely decided board with empty cells still yields an index. -/
theorem bestMove_none_iff_full (b : Board) (ai human : Mark) (r : Nat) :
    bestMove b ai human r = none ↔ isFull b = true := by
  rw [bestMove]
  by_cases hleg : legalMoves b = []
  · have hb : bestMoves b ai human = [] := bestMoves_eq_nil_of_full hleg
    simp [hb, legalMoves_eq_nil_iff.mp hleg]
  · have hbne : bestMoves b ai human ≠ [] := bestMoves_ne_nil hleg
    have hfull : ¬ (isFull b = true) := fun hf => hleg (legalMoves_eq_nil_iff.mpr hf)
    have hemp : ¬ ((bestMoves b ai human).isEmpty = true) := by
      simp [List.isEmpty_iff, hbne]
    simp only [hemp, if_false]
    have hlt : r % (bestMoves b ai human).length < (bestMoves b ai human).length :=
      Nat.mod_lt _ (List.length_pos.mpr hbne)
    rw [List.get?_eq_get hlt]
    simp [hfull]

/-- C7 witness: on a full board the engine returns the absent move. -/
theorem bestMove_none_iff_full_witness : bestMove wbDraw Mark.O Mark.X 5 = none :=
  (bestMove_none_iff_full wbDraw Mark.O Mark.X 5).mpr (by decide)

/-- C8 counterexample: when the human holds `O`, restarting hands the first
move to `X`, the computer's mark — the human is not the next mover. -/
theorem restartRound_counterexample :
    (restartRound wsHumanO).turn ≠ (restartRound wsHumanO).human := by decide

/-- C8 amended: restarting is idempotent and yields the empty board with no
result, no winning line, nothing tallied, and the mark `X` (the first-moving
mark, not necessarily the human's) to move; the score and the mark
assignment survive, and the derivation/tally effects leave the restarted
state fixed. -/
theorem restartRound_spec (s : GameState) :
    restartRound (restartRound s) = restartRound s ∧
    (restartRound s).board = emptyBoard ∧
    (restartRound s).turn = Mark.X ∧
    (restartRound s).result = none ∧
    (restartRound s).winLine = [] ∧
    (restartRound s).scored = none ∧
    (restartRound s).score = s.score ∧
    (restartRound s).human = s.human ∧
    applyEffects (restartRound s) = restartRound s :=
  ⟨rfl, rfl, rfl, rfl, rfl, rfl, rfl, rfl, rfl⟩

/-- C9 counterexample: requesting the mark the human already holds does not
clear a mid-round board, and reassigning to `O` leaves `X` — now the
computer — as the next mover rather than re-entering the human's turn. -/
theorem chooseSymbol_counterexample :
    (chooseSymbol wsMid Mark.X).board ≠ emptyBoard ∧
    (chooseSymbol wsMid Mark.O).turn ≠ (chooseSymbol wsMid Mark.O).human := by
  constructor
  · decide
  · decide

/-- C9 amended: a mark request equal to the human's current mark is a no-op;
a different mark clears the board, clears the outcome and the tally record,
keeps the score, and gives the move to `X` (the human only when the new
human mark is `X`). -/
theorem chooseSymbol_spec (s : GameState) (next : Mark) :
    (next = s.human → chooseSymbol s next = s) ∧
    (next ≠ s.human →
      chooseSymbol s next = ⟨emptyBoard, next, Mark.X, none, [], s.score, none⟩) := by
  constructor
  · intro h
    rw [chooseSymbol, if_pos h]
  · intro h
    rw [chooseSymbol, if_neg h]

/-- C9 witness: both branches at a concrete mid-round state. -/
theorem chooseSymbol_spec_witness :
    chooseSymbol wsMid Mark.X = wsMid ∧
    chooseSymbol wsMid Mark.O = ⟨emptyBoard, Mark.O, Mark.X, none, [], wsMid.score, none⟩ :=
  ⟨(chooseSymbol_spec wsMid Mark.X).1 rfl,
   (chooseSymbol_spec wsMid Mark.O).2 (by decide)⟩

/-- C10: the search never leaks mutation to its caller — the board term the
stateful `minimax` and `bestMove` hand back is the board they were given:
every cell the search writes is restored before returning. -/
theorem search_preserves_board (b : Board) (ai human : Mark) (r : Nat)
    (fuel d : Nat) (isMax : Bool) :
    (minimaxS fuel b d isMax ai human).2 = b ∧ (bestMoveS b ai human r).2 = b :=
  ⟨minimaxS_board fuel b d isMax ai human,
   by rw [bestMoveS]; exact bmLoopS_board ai human (List.range b.length) b (none, [])⟩

end TTT
